import Mathlib

/-!
Verification of the front-end exercise collection.

Each namespace embeds one source file's data model and operations in Lean:

* `Promises`      — `Promise.myRace/myAny/myAll/myAllSettled` combinators
                    (promise-methods source file).
* `MyPromiseImpl` — the custom `MyPromise` class and its `then`.
* `DeepEq`        — `deepEquals` structural equality.
* `ArrayMethods`  — `Array.prototype.myReduce`.
* `ConnectFour`   — the Connect Four reducer, `didWin` and `genEmptyState`.
* `WordleComp`    — the Wordle component's fetch effect and render guard.

Promise-combinator semantics are embedded by an event-driven execution: each
input promise has a `Fate` (fulfilled, rejected, or forever pending), and a
`schedule` lists the indices of the settled inputs in the temporal order in
which they settle.  A combinator attaches a callback to every input; running
the combinator folds its callbacks over the schedule, and the combinator's
output promise takes the first `res`/`rej` call (first settlement wins), or
never settles (`none`) when no callback ever calls `res`/`rej`.
-/

namespace Promises

/-- The eventual outcome of one input promise: it fulfills with a value,
rejects with a reason, or stays pending forever. -/
inductive Fate (α : Type) : Type
  | fulfilled (v : α) : Fate α
  | rejected (v : α) : Fate α
  | pending : Fate α
  deriving DecidableEq, Repr

/-- A schedule is valid for a list of input fates when it lists exactly the
indices of the settled (non-pending) inputs, each once, in some temporal
order. -/
def validSchedule {α : Type} (fates : List (Fate α)) (sched : List Nat) : Prop :=
  sched.Nodup ∧
  (∀ i ∈ sched, i < fates.length ∧ fates.getD i .pending ≠ .pending) ∧
  (∀ i < fates.length, fates.getD i .pending ≠ .pending → i ∈ sched)

instance {α : Type} [DecidableEq α] (fates : List (Fate α)) (sched : List Nat) :
    Decidable (validSchedule fates sched) := by
  unfold validSchedule; infer_instance

/-- `Promise.myAny`: `promise.then(res)` resolves the outer promise with the
first fulfillment; `promise.catch(err => { if (index === promises.length - 1)
rej("all promises rejected") })` rejects the outer promise as soon as the
input at the final index position rejects. -/
def myAnyGo {α : Type} (fates : List (Fate α)) : List Nat → Option (Except String α)
  | [] => none
  | i :: rest =>
    match fates.getD i .pending with
    | .fulfilled v => some (.ok v)
    | .rejected _ =>
      if i = fates.length - 1 then some (.error "all promises rejected")
      else myAnyGo fates rest
    | .pending => myAnyGo fates rest

/-- Outcome of the promise returned by `Promise.myAny(promises)` under a given
settlement schedule. -/
def myAnyRun {α : Type} (fates : List (Fate α)) (sched : List Nat) :
    Option (Except String α) :=
  myAnyGo fates sched

/-- `Promise.myAll`: state is `resolvedValues` (a fixed-size array, one slot
per input) and `resolvedCount`.  `promise.then(val => { resolvedValues[index]
= val; resolvedCount += 1; if (resolvedCount === promises.length)
res(resolvedValues); }, rej)`. -/
def myAllGo {α : Type} (fates : List (Fate α)) :
    List Nat → List (Option α) → Nat → Option (Except α (List (Option α)))
  | [], _, _ => none
  | i :: rest, resolvedValues, resolvedCount =>
    match fates.getD i .pending with
    | .fulfilled v =>
      let values := resolvedValues.set i (some v)
      let count := resolvedCount + 1
      if count = fates.length then some (.ok values)
      else myAllGo fates rest values count
    | .rejected e => some (.error e)
    | .pending => myAllGo fates rest resolvedValues resolvedCount

/-- Outcome of the promise returned by `Promise.myAll(promises)` under a given
settlement schedule; `new Array(promises.length)` is the initial
`resolvedValues`, `0` the initial `resolvedCount`. -/
def myAllRun {α : Type} (fates : List (Fate α)) (sched : List Nat) :
    Option (Except α (List (Option α))) :=
  myAllGo fates sched (List.replicate fates.length none) 0

/-- One entry of `Promise.myAllSettled`'s result array:
`{ status: "fulfilled", value }` or `{ status: "rejected", error }`. -/
inductive SettledResult (α : Type) : Type
  | fulfilled (value : α) : SettledResult α
  | rejected (error : α) : SettledResult α
  deriving DecidableEq, Repr

/-- `Promise.myAllSettled`: `resolvedValues` starts as the empty array `[]`
and is written by sparse indexed assignment (`resolvedValues[index] = …`), so
it is modelled as a partial map from index to descriptor; the `.finally`
callback increments `resolvedCount` and resolves the outer promise with the
array once the count reaches the input length. -/
def myAllSettledGo {α : Type} (fates : List (Fate α)) :
    List Nat → (Nat → Option (SettledResult α)) → Nat →
      Option (Nat → Option (SettledResult α))
  | [], _, _ => none
  | i :: rest, resolvedValues, resolvedCount =>
    let values : Nat → Option (SettledResult α) :=
      match fates.getD i .pending with
      | .fulfilled v => fun j => if j = i then some (.fulfilled v) else resolvedValues j
      | .rejected e => fun j => if j = i then some (.rejected e) else resolvedValues j
      | .pending => resolvedValues
    let count := resolvedCount + 1
    if count = fates.length then some values
    else myAllSettledGo fates rest values count

/-- Outcome of the promise returned by `Promise.myAllSettled(promises)` under
a given settlement schedule (it never rejects, so the outcome is just the
optional resolution value). -/
def myAllSettledRun {α : Type} (fates : List (Fate α)) (sched : List Nat) :
    Option (Nat → Option (SettledResult α)) :=
  myAllSettledGo fates sched (fun _ => none) 0

end Promises

namespace Promises

/-- `true` iff the fate is a fulfillment. -/
def isFulfilled {α : Type} : Fate α → Bool
  | .fulfilled _ => true
  | _ => false

/-- `true` iff the fate is a rejection. -/
def isRejected {α : Type} : Fate α → Bool
  | .rejected _ => true
  | _ => false

/-- The `resolvedValues` array `myAll` has built once every input has
resolved: slot `i` holds input `i`'s value. -/
def fulfilledValues {α : Type} (fates : List (Fate α)) : List (Option α) :=
  fates.map fun f => match f with | .fulfilled v => some v | _ => none

lemma isFulfilled_ne_pending {α : Type} {f : Fate α} (h : isFulfilled f = true) :
    f ≠ Fate.pending := by
  cases f <;> simp [isFulfilled] at h ⊢

lemma myAllGo_nil_fates {α : Type} :
    ∀ (sched : List Nat) (values : List (Option α)) (count : Nat),
      myAllGo ([] : List (Fate α)) sched values count = none
  | [], _, _ => rfl
  | i :: rest, values, count => by
    simp only [myAllGo, List.getD]
    exact myAllGo_nil_fates rest values count

lemma myAllSettledGo_nil_fates {α : Type} :
    ∀ (sched : List Nat) (values : Nat → Option (SettledResult α)) (count : Nat),
      myAllSettledGo ([] : List (Fate α)) sched values count = none
  | [], _, _ => rfl
  | i :: rest, values, count => by
    simp only [myAllSettledGo, List.getD, List.length_nil]
    rw [if_neg (Nat.succ_ne_zero count)]
    exact myAllSettledGo_nil_fates rest _ _

lemma validSchedule_length_le {α : Type} {fates : List (Fate α)} {sched : List Nat}
    (h : validSchedule fates sched) : sched.length ≤ fates.length := by
  obtain ⟨hnd, hmem, -⟩ := h
  have hsub : sched.toFinset ⊆ Finset.range fates.length := by
    intro x hx
    rw [List.mem_toFinset] at hx
    exact Finset.mem_range.mpr (hmem x hx).1
  have hc := Finset.card_le_card hsub
  rwa [List.toFinset_card_of_nodup hnd, Finset.card_range] at hc

lemma validSchedule_length_eq {α : Type} {fates : List (Fate α)} {sched : List Nat}
    (h : validSchedule fates sched) (hcov : ∀ j < fates.length, j ∈ sched) :
    sched.length = fates.length := by
  obtain ⟨hnd, hmem, -⟩ := h
  have hset : sched.toFinset = Finset.range fates.length := by
    apply Finset.Subset.antisymm
    · intro x hx
      rw [List.mem_toFinset] at hx
      exact Finset.mem_range.mpr (hmem x hx).1
    · intro x hx
      rw [List.mem_toFinset]
      exact hcov x (Finset.mem_range.mp hx)
  have := congrArg Finset.card hset
  rwa [List.toFinset_card_of_nodup hnd, Finset.card_range] at this

lemma myAllGo_all_fulfilled {α : Type} (fates : List (Fate α))
    (hall : ∀ f ∈ fates, isFulfilled f = true) :
    ∀ (sched : List Nat) (values : List (Option α)) (count : Nat),
      sched ≠ [] → sched.Nodup → (∀ i ∈ sched, i < fates.length) →
      count + sched.length = fates.length →
      values.length = fates.length →
      (∀ j : Nat, j < fates.length → j ∉ sched →
        values[j]? = (fulfilledValues fates)[j]?) →
      myAllGo fates sched values count = some (.ok (fulfilledValues fates)) := by
  intro sched
  induction sched with
  | nil => intro values count hne; exact absurd rfl hne
  | cons i rest ih =>
    intro values count _ hnd hmem hcount hlen hvals
    have hi : i < fates.length := (hmem i (List.mem_cons_self i rest))
    obtain ⟨v, hf⟩ : ∃ v, fates[i] = Fate.fulfilled v := by
      have hful := hall fates[i] (List.getElem_mem hi)
      cases hfe : fates[i] <;> rw [hfe] at hful <;> simp [isFulfilled] at hful ⊢
    have hgetD : fates.getD i .pending = Fate.fulfilled v := by
      rw [List.getD_eq_getElem fates .pending hi, hf]
    have htgt : (fulfilledValues fates)[i]? = some (some v) := by
      simp [fulfilledValues, List.getElem?_map, List.getElem?_eq_getElem hi, hf]
    simp only [myAllGo, hgetD]
    by_cases hrest : rest = []
    · subst hrest
      have hcnt : count + 1 = fates.length := by simpa using hcount
      rw [if_pos hcnt]
      refine congrArg some (congrArg Except.ok (List.ext_getElem? fun j => ?_))
      by_cases hj : j = i
      · subst hj
        rw [List.getElem?_set_eq_of_lt (some v) (by rw [hlen]; exact hi), htgt]
      · rw [List.getElem?_set_ne (Ne.symm hj)]
        by_cases hjn : j < fates.length
        · exact hvals j hjn (by simp [hj])
        · rw [List.getElem?_eq_none (by rw [hlen]; omega),
            List.getElem?_eq_none (by simp [fulfilledValues]; omega)]
    · have hlt : ¬(count + 1 = fates.length) := by
        have : rest.length ≠ 0 := by simpa using hrest
        simp only [List.length_cons] at hcount
        omega
      rw [if_neg hlt]
      apply ih (values.set i (some v)) (count + 1) hrest hnd.of_cons
        (fun j hj => hmem j (List.mem_cons_of_mem i hj))
        (by simp only [List.length_cons] at hcount; omega)
        (by rw [List.length_set]; exact hlen)
      intro j hjn hjrest
      by_cases hj : j = i
      · subst hj
        rw [List.getElem?_set_eq_of_lt (some v) (by rw [hlen]; exact hjn), htgt]
      · rw [List.getElem?_set_ne (Ne.symm hj)]
        exact hvals j hjn (by simp [hj, hjrest])

lemma myAllGo_first_rejection {α : Type} (fates : List (Fate α)) (r : α) :
    ∀ (pre : List Nat) (rest : List Nat) (i : Nat) (values : List (Option α))
      (count : Nat),
      (∀ j ∈ pre, isFulfilled (fates.getD j .pending) = true) →
      fates.getD i .pending = .rejected r →
      count + pre.length < fates.length →
      myAllGo fates (pre ++ i :: rest) values count = some (.error r) := by
  intro pre
  induction pre with
  | nil =>
    intro rest i values count _ hrej _
    simp only [List.nil_append, myAllGo, hrej]
  | cons p ptl ih =>
    intro rest i values count hful hrej hcnt
    have hp := hful p (List.mem_cons_self p ptl)
    obtain ⟨v, hf⟩ : ∃ v, fates.getD p .pending = Fate.fulfilled v := by
      cases hfe : fates.getD p .pending <;> rw [hfe] at hp <;>
        simp [isFulfilled] at hp ⊢
    simp only [List.cons_append, myAllGo, hf]
    rw [if_neg (by simp only [List.length_cons] at hcnt; omega)]
    exact ih rest i _ (count + 1) (fun j hj => hful j (List.mem_cons_of_mem p hj))
      hrej (by simp only [List.length_cons] at hcnt; omega)

/-- **C1** (code bug, evaluated at the failing input): with inputs
`[pending-forever, Promise.reject 7]` — a valid schedule, since only input 1
ever settles — `Promise.myAny` rejects with the literal reason
"all promises rejected" even though not every input rejects (input 0 never
settles).  This contradicts the claim that `myAny` rejects only if every
input rejects: the code's `catch` tests `index === promises.length - 1`, so
any rejection of the last-indexed input triggers the rejection. -/
theorem myAny_last_index_rejection_bug :
    validSchedule [Fate.pending, Fate.rejected (7 : Nat)] [1] ∧
    myAnyRun [Fate.pending, Fate.rejected (7 : Nat)] [1] =
      some (.error "all promises rejected") ∧
    ¬(∀ f ∈ [Fate.pending, Fate.rejected (7 : Nat)], isRejected f = true) := by
  refine ⟨by decide, rfl, by decide⟩

/-- **C6 counterexample**: for the empty input sequence — whose only valid
schedule is the empty one, and all of whose inputs are (vacuously) resolved —
`myAll` does not resolve with the empty array: it never settles at all.  So
"for every input sequence … resolves … once every input has resolved" fails
at the empty sequence. -/
theorem myAll_empty_input_cex :
    validSchedule ([] : List (Fate Nat)) [] ∧
    (∀ f ∈ ([] : List (Fate Nat)), isFulfilled f = true) ∧
    myAllRun ([] : List (Fate Nat)) [] = none := by
  refine ⟨by decide, by decide, rfl⟩

/-- **C6** (amended: for every *non-empty* input sequence): under any valid
settlement schedule, (1) if every input resolves, `myAll` resolves with the
array of all resolved values in original input-index order — whatever the
temporal order of the schedule — and (2) if some input rejects, `myAll`
rejects with the rejection value of the first rejection encountered (the
first rejected index in the schedule, all earlier scheduled indices having
resolved). -/
theorem myAll_spec {α : Type} (fates : List (Fate α)) (sched : List Nat)
    (hvalid : validSchedule fates sched) (hne : fates ≠ []) :
    ((∀ f ∈ fates, isFulfilled f = true) →
      myAllRun fates sched = some (.ok (fulfilledValues fates))) ∧
    (∀ (pre post : List Nat) (i : Nat) (r : α), sched = pre ++ i :: post →
      (∀ j ∈ pre, isFulfilled (fates.getD j .pending) = true) →
      fates.getD i .pending = .rejected r →
      myAllRun fates sched = some (.error r)) := by
  constructor
  · intro hall
    have hcov : ∀ j < fates.length, j ∈ sched := by
      intro j hj
      apply hvalid.2.2 j hj
      rw [List.getD_eq_getElem fates .pending hj]
      exact isFulfilled_ne_pending (hall fates[j] (List.getElem_mem hj))
    have hlen := validSchedule_length_eq hvalid hcov
    have hnz : fates.length ≠ 0 := fun h => hne (List.length_eq_zero.mp h)
    apply myAllGo_all_fulfilled fates hall sched _ 0
      (by intro h; rw [h] at hlen; simp at hlen; omega)
      hvalid.1 (fun i hi => (hvalid.2.1 i hi).1) (by omega)
      (List.length_replicate _ _)
    · intro j hjn hjs
      exact absurd (hcov j hjn) hjs
  · intro pre post i r hsched hful hrej
    have hlen := validSchedule_length_le hvalid
    rw [hsched] at hlen
    simp only [List.length_append, List.length_cons] at hlen
    rw [hsched]
    exact myAllGo_first_rejection fates r pre post i _ 0 hful hrej (by omega)

/-- Witness for `myAll_spec`: both conjuncts applied at concrete inputs —
`myAll` over two fulfillments scheduled out of order resolves with the values
in input order, and `myAll` over a fulfillment and a rejection scheduled
rejection-first rejects with that rejection's reason. -/
theorem myAll_spec_witness :
    myAllRun [Fate.fulfilled 1, Fate.fulfilled (2 : Nat)] [1, 0] =
      some (.ok [some 1, some 2]) ∧
    myAllRun [Fate.fulfilled 1, Fate.rejected (9 : Nat)] [1, 0] =
      some (.error 9) := by
  constructor
  · exact (myAll_spec [Fate.fulfilled 1, Fate.fulfilled (2 : Nat)] [1, 0]
      (by decide) (by decide)).1 (by decide)
  · exact (myAll_spec [Fate.fulfilled 1, Fate.rejected (9 : Nat)] [1, 0]
      (by decide) (by decide)).2 [] [0] 1 9 rfl (by decide) (by decide)

/-- **C10**: for the empty input sequence, the promises returned by `myAll`
and `myAllSettled` never settle under any schedule: the resolution check
`resolvedCount === promises.length` runs only inside a per-input callback,
and with no inputs no callback ever fires (and `resolvedCount`, once
incremented, can never equal `0`). -/
theorem myAll_myAllSettled_empty_never_settle {α : Type} (sched : List Nat) :
    myAllRun ([] : List (Fate α)) sched = none ∧
    myAllSettledRun ([] : List (Fate α)) sched = none :=
  ⟨myAllGo_nil_fates sched _ 0, myAllSettledGo_nil_fates sched _ 0⟩

end Promises

namespace MyPromiseImpl

/-!
The custom `MyPromise` class.  A handler argument of `then` is `none` when
absent (`null`/`undefined` — both falsy, so `!onFulfilled`/`!onRejected`
holds) and otherwise a function that either returns normally (`.ok r`) or
throws (`.error e`).  The settlement of a promise is `.ok v` (fulfilled with
`v`) or `.error v` (rejected with `v`).
-/

/-- `handleOnFullfill` (the source's spelling): with no `onFulfilled`,
`resolve(this.#value)` directly; otherwise `resolve(onFulfilled(value))`, or
`reject(error)` if the handler throws.  (The handler call is queued as a
microtask; only the resulting settlement is modelled.) -/
def handleOnFullfill {α : Type} (value : α) :
    Option (α → Except α α) → Except α α
  | none => .ok value
  | some onFulfilled => onFulfilled value

/-- `handleOnRejected`: with no `onRejected`, `reject(this.#value)` —
pass-through of the rejection; otherwise `resolve(onRejected(value))`, or
`reject(error)` if the handler throws. -/
def handleOnRejected {α : Type} (value : α) :
    Option (α → Except α α) → Except α α
  | none => .error value
  | some onRejected => onRejected value

/-- Settlement of the promise returned by `then(onFulfilled, onRejected)` as
a function of the source promise's settlement: if the source is already
settled, the matching handler closure runs immediately; if it is pending,
the same two closures are pushed on the callback queues and run at
settlement — either way the new promise's settlement is the same function of
the source's settlement. -/
def thenOutcome {α : Type} (source : Except α α)
    (onFulfilled onRejected : Option (α → Except α α)) : Except α α :=
  match source with
  | .ok v => handleOnFullfill v onFulfilled
  | .error v => handleOnRejected v onRejected

/-- **C5**: on a rejected source promise, `then` with no `onRejected`
handler rejects the returned promise with the same rejection value unchanged
(pass-through), and `then` with an `onRejected` handler that returns
normally *resolves* (does not reject) the returned promise with the
handler's return value. -/
theorem then_rejected_spec {α : Type} (v : α)
    (onFulfilled : Option (α → Except α α)) :
    thenOutcome (.error v) onFulfilled none = .error v ∧
    (∀ (h : α → Except α α) (r : α), h v = .ok r →
      thenOutcome (.error v) onFulfilled (some h) = .ok r) :=
  ⟨rfl, fun h r hr => by
    simp only [thenOutcome, handleOnRejected, hr]⟩

/-- Witness for `then_rejected_spec` at a concrete rejected promise: no
handler passes the rejection `3` through; the handler `x ↦ x + 1` recovers,
resolving with `4`. -/
theorem then_rejected_spec_witness :
    thenOutcome (.error (3 : Nat)) none none = .error 3 ∧
    thenOutcome (.error (3 : Nat)) none (some fun x => .ok (x + 1)) = .ok 4 :=
  ⟨(then_rejected_spec 3 none).1,
   (then_rejected_spec 3 none).2 (fun x => .ok (x + 1)) 4 rfl⟩

end MyPromiseImpl

namespace ArrayMethods

/-- The `initialValue` argument as JavaScript receives it: missing
(`undefined`), the `null` sentinel, or an actual value.  The source tests
`accumulator == null`, and loose equality to `null` matches exactly
`undefined` and `null`. -/
inductive JSArg (α : Type) : Type
  | undef : JSArg α
  | null : JSArg α
  | value (v : α) : JSArg α
  deriving DecidableEq, Repr

/-- The loop `for (let i = startingIndex; i < this.length; i++) accumulator
= callback(accumulator, this[i], i, this)`. -/
def myReduceLoop {α : Type} (xs : List α) (callback : α → α → Nat → List α → α)
    (accumulator : α) (i : Nat) : α :=
  if h : i < xs.length then
    myReduceLoop xs callback (callback accumulator (xs.get ⟨i, h⟩) i xs) (i + 1)
  else accumulator
termination_by xs.length - i

/-- `Array.prototype.myReduce(callback, initialValue)`: empty array returns
`initialValue` as-is; otherwise if `accumulator == null` the accumulator
seeds from `this[0]` and the loop starts at index 1, else it seeds from
`initialValue` and the loop starts at index 0. -/
def myReduce {α : Type} (xs : List α) (callback : α → α → Nat → List α → α)
    (initialValue : JSArg α) : JSArg α :=
  match xs with
  | [] => initialValue
  | x :: rest =>
    match initialValue with
    | .value v => .value (myReduceLoop (x :: rest) callback v 0)
    | _ => .value (myReduceLoop (x :: rest) callback x 1)

lemma myReduceLoop_cons_shift {α : Type} (g : α → α → α) (x : α) (xs : List α)
    (acc : α) (i : Nat) :
    myReduceLoop (x :: xs) (fun a b _ _ => g a b) acc (i + 1) =
    myReduceLoop xs (fun a b _ _ => g a b) acc i := by
  rw [myReduceLoop.eq_def, myReduceLoop.eq_def]
  by_cases h : i < xs.length
  · rw [dif_pos (by simpa using Nat.succ_lt_succ h), dif_pos h]
    have hget : (x :: xs).get ⟨i + 1, by simpa using Nat.succ_lt_succ h⟩ =
        xs.get ⟨i, h⟩ := rfl
    rw [hget]
    exact myReduceLoop_cons_shift g x xs _ (i + 1)
  · rw [dif_neg (by simpa using fun hh => h (Nat.lt_of_succ_lt_succ hh)),
      dif_neg h]
termination_by xs.length - i

lemma myReduceLoop_eq_foldl {α : Type} (g : α → α → α) :
    ∀ (ys : List α) (acc : α),
      myReduceLoop ys (fun a b _ _ => g a b) acc 0 = ys.foldl g acc
  | [], acc => by rw [myReduceLoop.eq_def]; simp
  | y :: ys, acc => by
    rw [myReduceLoop.eq_def]
    rw [dif_pos (by simp)]
    show myReduceLoop (y :: ys) (fun a b _ _ => g a b) (g acc y) (0 + 1) =
      (y :: ys).foldl g acc
    rw [myReduceLoop_cons_shift, myReduceLoop_eq_foldl g ys (g acc y)]
    rfl

/-- **C8**: `myReduce` on the empty sequence returns `initialValue`
unchanged, even when absent; on a non-empty sequence with `initialValue`
absent (`undefined` or the `null` sentinel) it seeds the accumulator from
the first element and iterates from the second (a singleton returns its sole
element for *every* callback, so `combine` is never consulted); otherwise it
seeds from `initialValue` and iterates from the first element. -/
theorem myReduce_spec {α : Type} :
    (∀ (callback : α → α → Nat → List α → α) (initialValue : JSArg α),
      myReduce [] callback initialValue = initialValue) ∧
    (∀ (x : α) (callback : α → α → Nat → List α → α),
      myReduce [x] callback .undef = .value x ∧
      myReduce [x] callback .null = .value x) ∧
    (∀ (g : α → α → α) (x : α) (xs : List α),
      myReduce (x :: xs) (fun a b _ _ => g a b) .undef = .value (xs.foldl g x) ∧
      myReduce (x :: xs) (fun a b _ _ => g a b) .null = .value (xs.foldl g x)) ∧
    (∀ (g : α → α → α) (v x : α) (xs : List α),
      myReduce (x :: xs) (fun a b _ _ => g a b) (.value v) =
        .value ((x :: xs).foldl g v)) := by
  refine ⟨fun _ _ => rfl, ?_, ?_, ?_⟩
  · intro x callback
    constructor <;>
      · show JSArg.value (myReduceLoop [x] callback x 1) = JSArg.value x
        rw [myReduceLoop.eq_def, dif_neg (by simp)]
  · intro g x xs
    constructor <;>
      · show JSArg.value (myReduceLoop (x :: xs) (fun a b _ _ => g a b) x (0 + 1)) =
          JSArg.value (xs.foldl g x)
        rw [myReduceLoop_cons_shift, myReduceLoop_eq_foldl]
  · intro g v x xs
    show JSArg.value (myReduceLoop (x :: xs) (fun a b _ _ => g a b) v 0) =
      JSArg.value ((x :: xs).foldl g v)
    rw [myReduceLoop_eq_foldl]

end ArrayMethods

namespace WordleComp

/-- The `solution` state variable: JavaScript `null`, or a string.  It is
initialized by `useState("")` to the empty string and later set to a fetched
word. -/
inductive JSStr : Type
  | jsNull : JSStr
  | str (s : String) : JSStr
  deriving DecidableEq, Repr

/-- `useState("")`: the initial value of `solution`. -/
def solutionInit : JSStr := .str ""

/-- The render guard `if (solution === null) { return null; }`: `true` iff
the component returns `null` (renders nothing) instead of the board. -/
def rendersNothing : JSStr → Bool
  | .jsNull => true
  | .str _ => false

/-- The `getWordleArray` effect body: `fetch(WORD_LIST_API_URL)` →
`response.json()` → `setSolution(words[⌊random·len⌋].toLowerCase())`.  There
is no `try`/`catch` around the awaits, so a failed fetch propagates out of
the async function as an unhandled rejection (`.error e`); on success the
solution becomes the chosen word lower-cased. -/
def getWordleArray (fetchResult : Except String (List String))
    (randomIndex : Nat) : Except String JSStr :=
  match fetchResult with
  | .error e => .error e
  | .ok words => .ok (.str (words.getD randomIndex "").toLower)

/-- **C2** (code bug, evaluated at the failing input): a word-list fetch
failure propagates out of `getWordleArray` uncaught — there is no
`try`/`catch`, although the repository's own solution-explanation document
shows one with `console.error` — and the freshly mounted component, whose
`solution` is initialized to `""` with no solution available yet, renders
the board: the guard `solution === null` matches only `null`, never the
initial `""`. -/
theorem wordle_fetch_failure_renders_board :
    getWordleArray (.error "network error") 0 = .error "network error" ∧
    solutionInit = JSStr.str "" ∧
    rendersNothing solutionInit = false ∧
    (∀ s : JSStr, rendersNothing s = true ↔ s = .jsNull) := by
  refine ⟨rfl, rfl, rfl, fun s => ?_⟩
  cases s <;> simp [rendersNothing]

end WordleComp

namespace DeepEq

inductive JSVal : Type
  | num (n : Int) : JSVal
  | nan : JSVal
  | str (s : String) : JSVal
  | bool (b : Bool) : JSVal
  | jsNull : JSVal
  | undef : JSVal
  | arr (elems : List JSVal) : JSVal
  | obj (fields : List (String × JSVal)) : JSVal

def jsTypeof : JSVal → String
  | .num _ => "number"
  | .nan => "number"
  | .str _ => "string"
  | .bool _ => "boolean"
  | .undef => "undefined"
  | .jsNull => "object"
  | .arr _ => "object"
  | .obj _ => "object"

def isNaNb : JSVal → Bool
  | .nan => true
  | _ => false

def isNullb : JSVal → Bool
  | .jsNull => true
  | _ => false

def strictEq : JSVal → JSVal → Bool
  | .num n, .num m => n == m
  | .str s, .str t => s == t
  | .bool a, .bool b => a == b
  | .jsNull, .jsNull => true
  | .undef, .undef => true
  | _, _ => false

mutual

def deepEquals (valueOne valueTwo : JSVal) : Bool :=
  if jsTypeof valueOne ≠ jsTypeof valueTwo then false
  else if jsTypeof valueOne ≠ "object" then
    if isNaNb valueOne && isNaNb valueTwo then true
    else strictEq valueOne valueTwo
  else if isNullb valueOne || isNullb valueTwo then
    strictEq valueOne valueTwo
  else
    match valueOne, valueTwo with
    | .arr xs, .arr ys =>
      if xs.length ≠ ys.length then false
      else deepEqualsElems xs ys
    | .arr _, _ => false
    | _, .arr _ => false
    | .obj l1, .obj l2 =>
      if l1.length ≠ l2.length then false
      else deepEqualsFields l1 l2
    | _, _ => false
termination_by sizeOf valueOne + sizeOf valueTwo

def deepEqualsElems : List JSVal → List JSVal → Bool
  | [], [] => true
  | x :: xs, y :: ys => deepEquals x y && deepEqualsElems xs ys
  | _, _ => false
termination_by xs ys => sizeOf xs + sizeOf ys

def deepEqualsFields : List (String × JSVal) → List (String × JSVal) → Bool
  | [], _ => true
  | (k, v) :: rest, l2 =>
    match hp : l2.find? (fun q => q.1 == k) with
    | none => false
    | some p => deepEquals v p.2 && deepEqualsFields rest l2
termination_by fs l2 => sizeOf fs + sizeOf l2
decreasing_by
  all_goals simp_wf
  all_goals
    (have hmem := List.sizeOf_lt_of_mem (List.mem_of_find?_eq_some hp)
     obtain ⟨a, b⟩ := p
     simp at hmem ⊢
     omega)

end

mutual

/-- Well-formed JavaScript value: every object, at any depth, has pairwise
distinct keys — automatic for values that originate from JavaScript object
literals, which cannot repeat a key. -/
def WFVal : JSVal → Bool
  | .arr xs => WFElems xs
  | .obj l => decide ((l.map Prod.fst).Nodup) && WFFields l
  | _ => true
termination_by v => sizeOf v

def WFElems : List JSVal → Bool
  | [] => true
  | x :: xs => WFVal x && WFElems xs
termination_by xs => sizeOf xs

def WFFields : List (String × JSVal) → Bool
  | [] => true
  | (_, v) :: rest => WFVal v && WFFields rest
termination_by fs => sizeOf fs

end

lemma band_split {a b : Bool} (h : (a && b) = true) : a = true ∧ b = true := by
  simp_all

lemma band_join {a b : Bool} (h1 : a = true) (h2 : b = true) : (a && b) = true := by
  simp_all

lemma WFElems_mem {xs : List JSVal} (h : WFElems xs = true) {x : JSVal}
    (hx : x ∈ xs) : WFVal x = true := by
  induction xs with
  | nil => cases hx
  | cons y ys ih =>
    rw [WFElems] at h
    rcases List.mem_cons.mp hx with rfl | hx'
    · exact (band_split h).1
    · exact ih (band_split h).2 hx'

lemma WFFields_mem {l : List (String × JSVal)} (h : WFFields l = true)
    {p : String × JSVal} (hp : p ∈ l) : WFVal p.2 = true := by
  induction l with
  | nil => cases hp
  | cons q qs ih =>
    obtain ⟨k, v⟩ := q
    rw [WFFields] at h
    rcases List.mem_cons.mp hp with rfl | hp'
    · exact (band_split h).1
    · exact ih (band_split h).2 hp'

/-- With pairwise distinct keys, `find?` on a key locates exactly the pair
holding that key. -/
lemma find?_eq_of_nodup_keys :
    ∀ (l : List (String × JSVal)) (k : String) (v : JSVal),
      (l.map Prod.fst).Nodup → (k, v) ∈ l →
      l.find? (fun q => q.1 == k) = some (k, v) := by
  intro l
  induction l with
  | nil => intro k v _ hm; cases hm
  | cons q qs ih =>
    intro k v hnd hm
    obtain ⟨k', v'⟩ := q
    rw [List.map_cons, List.nodup_cons] at hnd
    by_cases hk : k' = k
    · subst hk
      rcases List.mem_cons.mp hm with heq | hm'
      · rw [List.find?_cons_of_pos _ (by simp)]
        exact congrArg some heq.symm
      · exact absurd (List.mem_map.mpr ⟨(k', v), hm', rfl⟩) hnd.1
    · rcases List.mem_cons.mp hm with heq | hm'
      · exact absurd (congrArg Prod.fst heq).symm hk
      · rw [List.find?_cons_of_neg _ (by simp [hk])]
        exact ih k v hnd.2 hm'

lemma deepEqualsFields_of_found (l2 : List (String × JSVal)) :
    ∀ fields1 : List (String × JSVal),
      (∀ p ∈ fields1, l2.find? (fun q => q.1 == p.1) = some p ∧
        deepEquals p.2 p.2 = true) →
      deepEqualsFields fields1 l2 = true := by
  intro fields1
  induction fields1 with
  | nil => intro _; rw [deepEqualsFields]
  | cons p rest ih =>
    intro h
    obtain ⟨k, v⟩ := p
    obtain ⟨hfind, hdeep⟩ := h (k, v) (List.mem_cons_self _ _)
    rw [deepEqualsFields]
    split
    · next heq => rw [hfind] at heq; cases heq
    · next p' heq =>
      rw [hfind] at heq
      injection heq with heq'
      subst heq'
      exact band_join hdeep (ih fun q hq => h q (List.mem_cons_of_mem _ hq))

lemma deepEqualsElems_of_refl :
    ∀ xs : List JSVal, (∀ x ∈ xs, deepEquals x x = true) →
      deepEqualsElems xs xs = true := by
  intro xs
  induction xs with
  | nil => intro _; rw [deepEqualsElems]
  | cons x rest ih =>
    intro h
    rw [deepEqualsElems]
    exact band_join (h x (List.mem_cons_self _ _))
      (ih fun y hy => h y (List.mem_cons_of_mem _ hy))

lemma deepEquals_arr_arr (xs ys : List JSVal) :
    deepEquals (.arr xs) (.arr ys) =
      if xs.length ≠ ys.length then false else deepEqualsElems xs ys := by
  rw [deepEquals]; simp [jsTypeof, isNullb]

lemma deepEquals_obj_obj (l1 l2 : List (String × JSVal)) :
    deepEquals (.obj l1) (.obj l2) =
      if l1.length ≠ l2.length then false else deepEqualsFields l1 l2 := by
  rw [deepEquals]; simp [jsTypeof, isNullb]

lemma deepEquals_refl_aux :
    ∀ (n : Nat) (v : JSVal), sizeOf v ≤ n → WFVal v = true →
      deepEquals v v = true := by
  intro n
  induction n with
  | zero => intro v hv _; exfalso; cases v <;> simp at hv
  | succ n ih =>
    intro v hsz hwf
    cases v with
    | num m => simp [deepEquals, jsTypeof, isNaNb, strictEq]
    | nan => simp [deepEquals, jsTypeof, isNaNb]
    | str s => simp [deepEquals, jsTypeof, isNaNb, strictEq]
    | bool b => simp [deepEquals, jsTypeof, isNaNb, strictEq]
    | jsNull => simp [deepEquals, jsTypeof, isNullb, strictEq]
    | undef => simp [deepEquals, jsTypeof, isNaNb, strictEq]
    | arr xs =>
      rw [deepEquals_arr_arr]
      simp only [ne_eq, not_true_eq_false, if_false]
      rw [WFVal] at hwf
      apply deepEqualsElems_of_refl
      intro x hx
      have hlt := List.sizeOf_lt_of_mem hx
      refine ih x ?_ (WFElems_mem hwf hx)
      simp only [JSVal.arr.sizeOf_spec] at hsz
      omega
    | obj l =>
      rw [deepEquals_obj_obj]
      simp only [ne_eq, not_true_eq_false, if_false]
      rw [WFVal] at hwf
      obtain ⟨hnd, hwfl⟩ := band_split hwf
      apply deepEqualsFields_of_found
      intro p hp
      obtain ⟨k, v⟩ := p
      refine ⟨find?_eq_of_nodup_keys l k v (by simpa using hnd) hp, ?_⟩
      have hlt := List.sizeOf_lt_of_mem hp
      refine ih v ?_ (WFFields_mem hwfl hp)
      simp only [JSVal.obj.sizeOf_spec] at hsz
      simp only [Prod.mk.sizeOf_spec] at hlt
      omega

/-- `deepEquals v v = true` for every well-formed value. -/
lemma deepEquals_refl (v : JSVal) (hwf : WFVal v = true) :
    deepEquals v v = true :=
  deepEquals_refl_aux (sizeOf v) v le_rfl hwf

/-- The spec's "basic kind" of a value (finer than `typeof`: it separates
`null`, arrays and plain records, which all share `typeof "object"`). -/
def jsKind : JSVal → String
  | .num _ => "number"
  | .nan => "number"
  | .str _ => "string"
  | .bool _ => "boolean"
  | .undef => "undefined"
  | .jsNull => "null"
  | .arr _ => "array"
  | .obj _ => "object"

lemma deepEquals_kind_mismatch :
    ∀ a b : JSVal, jsKind a ≠ jsKind b → deepEquals a b = false := by
  intro a b h
  cases a <;> cases b <;>
    first
      | exact absurd rfl h
      | (rw [deepEquals.eq_def]
         simp [jsTypeof, isNaNb, isNullb, strictEq])

lemma deepEqualsElems_iff :
    ∀ xs ys : List JSVal, deepEqualsElems xs ys = true ↔
      List.Forall₂ (fun a b => deepEquals a b = true) xs ys
  | [], [] => by rw [deepEqualsElems.eq_def]; simp
  | [], y :: ys => by rw [deepEqualsElems.eq_def]; simp
  | x :: xs, [] => by rw [deepEqualsElems.eq_def]; simp
  | x :: xs, y :: ys => by
    rw [deepEqualsElems]
    simp [List.forall₂_cons, deepEqualsElems_iff xs ys]

lemma deepEquals_arr_iff (xs ys : List JSVal) :
    deepEquals (.arr xs) (.arr ys) = true ↔
      List.Forall₂ (fun a b => deepEquals a b = true) xs ys := by
  rw [deepEquals_arr_arr]
  by_cases hl : xs.length = ys.length
  · rw [if_neg (by simp [hl])]
    exact deepEqualsElems_iff xs ys
  · rw [if_pos (by simp [hl])]
    constructor
    · intro h; cases h
    · intro h; exact absurd h.length_eq hl

lemma deepEqualsFields_mem_of_true (l2 : List (String × JSVal)) :
    ∀ fields1 : List (String × JSVal), deepEqualsFields fields1 l2 = true →
      ∀ p ∈ fields1, ∃ q ∈ l2, q.1 = p.1 ∧ deepEquals p.2 q.2 = true := by
  intro fields1
  induction fields1 with
  | nil => intro _ p hp; cases hp
  | cons r rest ih =>
    intro h p hp
    obtain ⟨k, v⟩ := r
    rw [deepEqualsFields] at h
    split at h
    · cases h
    · next p' heq =>
      obtain ⟨h1, h2⟩ := band_split h
      rcases List.mem_cons.mp hp with rfl | hp'
      · exact ⟨p', List.mem_of_find?_eq_some heq,
          by simpa using List.find?_some heq, h1⟩
      · exact ih h2 p hp'

lemma deepEquals_obj_necessary (l1 l2 : List (String × JSVal))
    (h : deepEquals (.obj l1) (.obj l2) = true) :
    l1.length = l2.length ∧
      ∀ p ∈ l1, ∃ q ∈ l2, q.1 = p.1 ∧ deepEquals p.2 q.2 = true := by
  rw [deepEquals_obj_obj] at h
  by_cases hl : l1.length = l2.length
  · rw [if_neg (by simp [hl])] at h
    exact ⟨hl, deepEqualsFields_mem_of_true l2 l1 h⟩
  · rw [if_pos (by simp [hl])] at h
    cases h

/-- Key enumeration order is irrelevant: permuting a well-formed object's
field list preserves `deepEquals`. -/
lemma deepEquals_obj_perm (l1 l2 : List (String × JSVal))
    (hwf : WFVal (.obj l1) = true) (hperm : l1.Perm l2) :
    deepEquals (.obj l1) (.obj l2) = true := by
  rw [deepEquals_obj_obj, if_neg (by simp [hperm.length_eq])]
  rw [WFVal] at hwf
  obtain ⟨hnd, hwfl⟩ := band_split hwf
  have hnd1 : (l1.map Prod.fst).Nodup := by simpa using hnd
  have hnd2 : (l2.map Prod.fst).Nodup := ((hperm.map Prod.fst).nodup_iff).mp hnd1
  apply deepEqualsFields_of_found
  intro p hp
  obtain ⟨k, v⟩ := p
  exact ⟨find?_eq_of_nodup_keys l2 k v hnd2 (hperm.mem_iff.mp hp),
    deepEquals_refl v (WFFields_mem hwfl hp)⟩

lemma deepEqualsFields_of_all_found (l2 : List (String × JSVal)) :
    ∀ fields1 : List (String × JSVal),
      (∀ p ∈ fields1, ∃ q, l2.find? (fun r => r.1 == p.1) = some q ∧
        deepEquals p.2 q.2 = true) →
      deepEqualsFields fields1 l2 = true := by
  intro fields1
  induction fields1 with
  | nil => intro _; rw [deepEqualsFields]
  | cons p rest ih =>
    intro h
    obtain ⟨k, v⟩ := p
    obtain ⟨q, hfind, hdeep⟩ := h (k, v) (List.mem_cons_self _ _)
    rw [deepEqualsFields]
    split
    · next heq => rw [hfind] at heq; cases heq
    · next q' heq =>
      rw [hfind] at heq
      injection heq with heq'
      subst heq'
      exact band_join hdeep (ih fun r hr => h r (List.mem_cons_of_mem _ hr))

/-- With duplicate-free key lists of equal length, the keys of the first
record all appearing among the keys of the second forces every key of the
second to appear among the keys of the first. -/
lemma keys_mem_of_counts (l1 l2 : List (String × JSVal))
    (hnd1 : (l1.map Prod.fst).Nodup) (hnd2 : (l2.map Prod.fst).Nodup)
    (hlen : l1.length = l2.length)
    (hsub : ∀ p ∈ l1, p.1 ∈ l2.map Prod.fst) :
    ∀ q ∈ l2, ∃ p ∈ l1, p.1 = q.1 := by
  have hsubset : (l1.map Prod.fst).toFinset ⊆ (l2.map Prod.fst).toFinset := by
    intro x hx
    rw [List.mem_toFinset] at hx ⊢
    obtain ⟨p, hp, rfl⟩ := List.mem_map.mp hx
    exact hsub p hp
  have hcard : (l2.map Prod.fst).toFinset.card ≤
      (l1.map Prod.fst).toFinset.card := by
    rw [List.toFinset_card_of_nodup hnd1, List.toFinset_card_of_nodup hnd2]
    simp [hlen]
  have heq : (l1.map Prod.fst).toFinset = (l2.map Prod.fst).toFinset :=
    Finset.eq_of_subset_of_card_le hsubset hcard
  intro q hq
  have hq1 : q.1 ∈ (l1.map Prod.fst).toFinset := by
    rw [heq, List.mem_toFinset]
    exact List.mem_map.mpr ⟨q, hq, rfl⟩
  rw [List.mem_toFinset] at hq1
  obtain ⟨p, hp, hpq⟩ := List.mem_map.mp hq1
  exact ⟨p, hp, hpq⟩

/-- The record clause of the claim as a biconditional, for duplicate-key-free
(real JavaScript) records: two records are reported equal exactly when their
key counts agree, every key of the first is present in the second with
deeply-equal values per shared key, and every key of the second is present
in the first. -/
lemma deepEquals_obj_iff (l1 l2 : List (String × JSVal))
    (hnd1 : (l1.map Prod.fst).Nodup) (hnd2 : (l2.map Prod.fst).Nodup) :
    deepEquals (.obj l1) (.obj l2) = true ↔
      l1.length = l2.length ∧
      (∀ p ∈ l1, ∃ q ∈ l2, q.1 = p.1 ∧ deepEquals p.2 q.2 = true) ∧
      (∀ q ∈ l2, ∃ p ∈ l1, p.1 = q.1) := by
  constructor
  · intro h
    obtain ⟨hlen, hkeys⟩ := deepEquals_obj_necessary l1 l2 h
    refine ⟨hlen, hkeys, ?_⟩
    apply keys_mem_of_counts l1 l2 hnd1 hnd2 hlen
    intro p hp
    obtain ⟨q, hq, hq1, -⟩ := hkeys p hp
    rw [← hq1]
    exact List.mem_map.mpr ⟨q, hq, rfl⟩
  · rintro ⟨hlen, hkeys, -⟩
    rw [deepEquals_obj_obj, if_neg (by simp [hlen])]
    apply deepEqualsFields_of_all_found
    intro p hp
    obtain ⟨q, hq, hq1, hdeep⟩ := hkeys p hp
    refine ⟨q, ?_, hdeep⟩
    obtain ⟨qk, qv⟩ := q
    dsimp only at hq1
    subst hq1
    exact find?_eq_of_nodup_keys l2 p.1 qv hnd2 hq

/-- **C7**: `deepEquals` implements structural equality per the spec's
reference algorithm: `NaN` is equal to `NaN`; values of differing basic
kinds are unequal; arrays are equal iff they have the same length and are
element-wise deeply equal in order; equal records have equal key counts and,
for every field of the first, a field of the second with the same key and a
deeply-equal value; key enumeration order is irrelevant — permuting a
(well-formed, duplicate-key-free) record's fields preserves equality; and,
for duplicate-key-free records, equality holds *iff* the key counts agree,
each record's keys are present in the other and the values are deeply equal
per shared key. -/
theorem deepEquals_spec :
    (deepEquals .nan .nan = true) ∧
    (∀ a b : JSVal, jsKind a ≠ jsKind b → deepEquals a b = false) ∧
    (∀ xs ys : List JSVal, deepEquals (.arr xs) (.arr ys) = true ↔
      List.Forall₂ (fun a b => deepEquals a b = true) xs ys) ∧
    (∀ l1 l2 : List (String × JSVal), deepEquals (.obj l1) (.obj l2) = true →
      l1.length = l2.length ∧
      ∀ p ∈ l1, ∃ q ∈ l2, q.1 = p.1 ∧ deepEquals p.2 q.2 = true) ∧
    (∀ l1 l2 : List (String × JSVal), WFVal (.obj l1) = true → l1.Perm l2 →
      deepEquals (.obj l1) (.obj l2) = true) ∧
    (∀ l1 l2 : List (String × JSVal),
      (l1.map Prod.fst).Nodup → (l2.map Prod.fst).Nodup →
      (deepEquals (.obj l1) (.obj l2) = true ↔
        l1.length = l2.length ∧
        (∀ p ∈ l1, ∃ q ∈ l2, q.1 = p.1 ∧ deepEquals p.2 q.2 = true) ∧
        (∀ q ∈ l2, ∃ p ∈ l1, p.1 = q.1))) :=
  ⟨by rw [deepEquals.eq_def]; simp [jsTypeof, isNaNb],
   deepEquals_kind_mismatch, deepEquals_arr_iff,
   deepEquals_obj_necessary, deepEquals_obj_perm, deepEquals_obj_iff⟩

/-- Witness for `deepEquals_spec` at the spec's own examples:
`deepEquals(1, "1")` is `false` (kind mismatch);
`deepEquals({a:123, b:{c:[4,5,6]}}, {b:{c:[4,5,6]}, a:123})` is `true`
(permuted keys); and the record biconditional applied forward at
`{a: NaN, b: 7}` versus `{b: 7, a: NaN}` yields the key-count, key-presence
and per-key conditions. -/
theorem deepEquals_spec_witness :
    deepEquals (.num 1) (.str "1") = false ∧
    deepEquals
      (.obj [("a", .num 123), ("b", .obj [("c", .arr [.num 4, .num 5, .num 6])])])
      (.obj [("b", .obj [("c", .arr [.num 4, .num 5, .num 6])]), ("a", .num 123)])
      = true ∧
    (([(("a" : String), JSVal.nan), (("b" : String), JSVal.num 7)].length =
        [(("b" : String), JSVal.num 7), (("a" : String), JSVal.nan)].length) ∧
      (∀ p ∈ [(("a" : String), JSVal.nan), (("b" : String), JSVal.num 7)],
        ∃ q ∈ [(("b" : String), JSVal.num 7), (("a" : String), JSVal.nan)],
          q.1 = p.1 ∧ deepEquals p.2 q.2 = true) ∧
      (∀ q ∈ [(("b" : String), JSVal.num 7), (("a" : String), JSVal.nan)],
        ∃ p ∈ [(("a" : String), JSVal.nan), (("b" : String), JSVal.num 7)],
          p.1 = q.1)) :=
  ⟨deepEquals_spec.2.1 _ _ (by simp [jsKind]),
   deepEquals_spec.2.2.2.2.1 _ _
     (by simp [WFVal, WFFields, WFElems])
     (List.Perm.swap _ _ _),
   (deepEquals_spec.2.2.2.2.2 _ _ (by decide) (by decide)).mp
     (deepEquals_spec.2.2.2.2.1 _ _
       (by simp [WFVal, WFFields, WFElems])
       (List.Perm.swap _ _ _))⟩

end DeepEq

namespace ConnectFour

def NUM_COL : Nat := 7
def NUM_ROW : Nat := 6
def NUM_TO_WIN : Nat := 4

/-- The reducer state: `board` is column-major (`board[col][row]`, row 0 at
the top), each cell `null` (`none`) or the occupying player's number. -/
structure GameState where
  board : List (List (Option Nat))
  currentPlayer : Nat
  winner : Option Nat
  isGameOver : Bool
  deriving DecidableEq, Repr

/-- `genEmptyState()`: 7 columns of 6 empty cells, player 1 to move. -/
def genEmptyState : GameState :=
  { board := List.replicate NUM_COL (List.replicate NUM_ROW none)
    currentPlayer := 1
    winner := none
    isGameOver := false }

/-- `board[currColumn][currRow]` with JavaScript out-of-bounds reads giving
`undefined` (here `none`), which compares unequal to any player. -/
def getEntry (board : List (List (Option Nat))) (col row : Int) : Option Nat :=
  if 0 ≤ col ∧ 0 ≤ row then (board.getD col.toNat []).getD row.toNat none
  else none

/-- The first `while` loop of `didWin`: from the starting cell, walk by
`(rowIncrement, colIncrement)` while `currColumn < NUM_COL && currRow <
NUM_ROW` and the cell holds the current player, counting the run.  `fuel`
bounds the iterations: every call direction changes `row` or `col` by 1 each
step, so fewer than `NUM_COL + NUM_ROW` iterations can stay in bounds, and
the fuel `didWin` passes is never exhausted. -/
def countForward (board : List (List (Option Nat))) (fuel : Nat)
    (currRow currCol rowInc colInc : Int) (p : Nat) : Nat :=
  match fuel with
  | 0 => 0
  | fuel + 1 =>
    if currCol < (NUM_COL : Int) ∧ currRow < (NUM_ROW : Int) ∧
        getEntry board currCol currRow = some p then
      1 + countForward board fuel (currRow + rowInc) (currCol + colInc)
        rowInc colInc p
    else 0

/-- The second `while` loop of `didWin`: walk the opposite direction while
`currColumn >= 0 && currRow >= 0` and the cell holds the current player. -/
def countBackward (board : List (List (Option Nat))) (fuel : Nat)
    (currRow currCol rowInc colInc : Int) (p : Nat) : Nat :=
  match fuel with
  | 0 => 0
  | fuel + 1 =>
    if 0 ≤ currCol ∧ 0 ≤ currRow ∧ getEntry board currCol currRow = some p then
      1 + countBackward board fuel (currRow - rowInc) (currCol - colInc)
        rowInc colInc p
    else 0

/-- `didWin`: counts consecutive same-player cells extending in both
directions from the placed cell along one axis and reports whether the run
reaches `NUM_TO_WIN`. -/
def didWin (board : List (List (Option Nat)))
    (startingRow startingColumn rowIncrement colIncrememt : Int)
    (currentPlayer : Nat) : Bool :=
  let n1 := countForward board (NUM_COL + NUM_ROW) startingRow startingColumn
    rowIncrement colIncrememt currentPlayer
  let n2 := countBackward board (NUM_COL + NUM_ROW)
    (startingRow - rowIncrement) (startingColumn - colIncrememt)
    rowIncrement colIncrememt currentPlayer
  decide (n1 + n2 ≥ NUM_TO_WIN)

/-- `Array.prototype.lastIndexOf(null)`: the largest index holding `null`,
or `-1` when there is none. -/
def lastIndexOfNone : List (Option Nat) → Int
  | [] => -1
  | c :: rest =>
    let r := lastIndexOfNone rest
    if r ≥ 0 then r + 1
    else if c = none then 0 else -1

/-- `colClone[rowIndex] = currentPlayer`: a JavaScript indexed assignment at
`-1` creates a non-index property, leaving the array's entries unchanged, so
a negative index is a no-op on the modelled entries. -/
def setAt (col : List (Option Nat)) (i : Int) (v : Option Nat) :
    List (Option Nat) :=
  if i < 0 then col else col.set i.toNat v

/-- The two dispatched action types (the reducer's `default` branch that
throws is unreachable from the component). -/
inductive Action : Type
  | move (colIndex : Nat) : Action
  | restart : Action

/-- The reducer: `restart` rebuilds the empty state; `move` is rejected
(state returned unchanged) when the game is over or the target column's top
cell is occupied, and otherwise drops the current player's piece into the
last `null` slot of the column, evaluates `didWin` along the four axes from
the placed cell, flips the player, and sets `winner`/`isGameOver`. -/
def reducer (state : GameState) (action : Action) : GameState :=
  match action with
  | .restart => genEmptyState
  | .move colIndex =>
    let relevantCol := state.board.getD colIndex []
    let isColFull := (relevantCol.getD 0 none).isSome
    if state.isGameOver || isColFull then state
    else
      let currentPlayer := state.currentPlayer
      let rowIndex : Int := lastIndexOfNone relevantCol
      let colClone := setAt relevantCol rowIndex (some currentPlayer)
      let boardClone := state.board.set colIndex colClone
      let didWinVertical := didWin boardClone rowIndex colIndex 1 0 currentPlayer
      let didWinHorizontal := didWin boardClone rowIndex colIndex 0 1 currentPlayer
      let didWinDiagonal :=
        didWin boardClone rowIndex colIndex 1 1 currentPlayer ||
        didWin boardClone rowIndex colIndex (-1) 1 currentPlayer
      let winner :=
        if didWinVertical || didWinHorizontal || didWinDiagonal then
          some currentPlayer
        else none
      let isBoardFull := boardClone.all fun column => column.all fun val => val.isSome
      { board := boardClone
        currentPlayer := if currentPlayer = 1 then 2 else 1
        winner := winner
        isGameOver := winner.isSome || isBoardFull }

/-- Dispatch a sequence of column clicks as `move` actions. -/
def applyMoves (s : GameState) : List Nat → GameState
  | [] => s
  | c :: cs => applyMoves (reducer s (.move c)) cs

end ConnectFour

namespace ConnectFour

/-! Proof infrastructure for the vertical-stack scenario: during the move
sequence `c, d, c, d, c, d, c` only columns `c` and `d` are ever touched, so
every intermediate board is the empty board with columns `c` and `d`
replaced.  `mkBoard` names that shape; the column contents are the literal
lists below. -/

/-- The empty board with column `c` replaced by `X` and column `d` by `Y`. -/
def mkBoard (c d : Nat) (X Y : List (Option Nat)) : List (List (Option Nat)) :=
  ((List.replicate 7 (List.replicate 6 none)).set c X).set d Y

/-- Column contents after each drop: player 1 stacking in column `c`. -/
def colE : List (Option Nat) := List.replicate 6 none
def colC1 : List (Option Nat) := [none, none, none, none, none, some 1]
def colC2 : List (Option Nat) := [none, none, none, none, some 1, some 1]
def colC3 : List (Option Nat) := [none, none, none, some 1, some 1, some 1]
def colC4 : List (Option Nat) := [none, none, some 1, some 1, some 1, some 1]
def colD1 : List (Option Nat) := [none, none, none, none, none, some 2]
def colD2 : List (Option Nat) := [none, none, none, none, some 2, some 2]
def colD3 : List (Option Nat) := [none, none, none, some 2, some 2, some 2]

lemma set_replicate_self {α : Type} (n i : Nat) (a : α) (h : i < n) :
    (List.replicate n a).set i a = List.replicate n a := by
  apply List.ext_getElem (by simp)
  intro j h1 h2
  by_cases hj : i = j
  · subst hj
    rw [List.getElem_set_self, List.getElem_replicate]
  · rw [List.getElem_set_ne hj, List.getElem_replicate]

lemma mkBoard_base (c d : Nat) (hc : c < 7) (hd : d < 7) :
    mkBoard c d colE colE = List.replicate 7 (List.replicate 6 none) := by
  unfold mkBoard colE
  rw [set_replicate_self _ _ _ hc, set_replicate_self _ _ _ hd]

lemma mkBoard_length (c d : Nat) (X Y : List (Option Nat)) :
    (mkBoard c d X Y).length = 7 := by
  simp [mkBoard]

lemma mkBoard_comm (c d : Nat) (X Y : List (Option Nat)) (hne : c ≠ d) :
    mkBoard c d X Y = mkBoard d c Y X :=
  List.set_comm X Y _ hne

lemma getD_mkBoard_c (c d : Nat) (X Y : List (Option Nat)) (hc : c < 7)
    (hne : c ≠ d) : (mkBoard c d X Y).getD c [] = X := by
  rw [List.getD_eq_getElem _ _ (by rw [mkBoard_length]; exact hc)]
  unfold mkBoard
  rw [List.getElem_set_ne (Ne.symm hne), List.getElem_set_self]

lemma getD_mkBoard_d (c d : Nat) (X Y : List (Option Nat)) (hd : d < 7) :
    (mkBoard c d X Y).getD d [] = Y := by
  rw [List.getD_eq_getElem _ _ (by rw [mkBoard_length]; exact hd)]
  unfold mkBoard
  rw [List.getElem_set_self]

lemma getD_mkBoard_other (c d j : Nat) (X Y : List (Option Nat))
    (hjc : j ≠ c) (hjd : j ≠ d) (r : Nat) :
    ((mkBoard c d X Y).getD j []).getD r none = none := by
  by_cases hj : j < 7
  · have hcol : (mkBoard c d X Y).getD j [] = List.replicate 6 none := by
      rw [List.getD_eq_getElem _ _ (by rw [mkBoard_length]; exact hj)]
      unfold mkBoard
      rw [List.getElem_set_ne (Ne.symm hjd), List.getElem_set_ne (Ne.symm hjc),
        List.getElem_replicate]
    rw [hcol, List.getD_eq_getElem?_getD, List.getElem?_replicate]
    by_cases hr : r < 6
    · rw [if_pos hr]; rfl
    · rw [if_neg hr]; rfl
  · have hcol : (mkBoard c d X Y).getD j [] = [] :=
      List.getD_eq_default _ _ (by rw [mkBoard_length]; omega)
    rw [hcol]; rfl

lemma set_mkBoard_c (c d : Nat) (X Y X' : List (Option Nat)) (hne : c ≠ d) :
    (mkBoard c d X Y).set c X' = mkBoard c d X' Y := by
  unfold mkBoard
  rw [List.set_comm Y X' _ (Ne.symm hne), List.set_set]

lemma getD_ne_of_not_mem {α : Type} (l : List α) (dflt x : α) (h : x ∉ l)
    (hx : x ≠ dflt) (i : Nat) : l.getD i dflt ≠ x := by
  rw [List.getD_eq_getElem?_getD]
  cases hg : l[i]? with
  | none => exact fun he => hx he.symm
  | some y =>
    intro he
    obtain ⟨hlt, rfl⟩ := List.getElem?_eq_some.mp hg
    exact h (he ▸ List.getElem_mem hlt)

lemma getEntry_mkBoard_c (c d : Nat) (X Y : List (Option Nat)) (hc : c < 7)
    (hne : c ≠ d) (r : Int) :
    getEntry (mkBoard c d X Y) c r =
      if 0 ≤ r then X.getD r.toNat none else none := by
  unfold getEntry
  by_cases hr : 0 ≤ r
  · rw [if_pos ⟨Int.ofNat_nonneg c, hr⟩, if_pos hr]
    rw [show ((c : Int)).toNat = c from rfl, getD_mkBoard_c c d X Y hc hne]
  · rw [if_neg (fun hh => hr hh.2), if_neg hr]

lemma getEntry_mkBoard_ne_p (c d : Nat) (X Y : List (Option Nat)) (p : Nat)
    (hd : d < 7) (j r : Int) (hj : j ≠ (c : Int)) (hYp : some p ∉ Y) :
    getEntry (mkBoard c d X Y) j r ≠ some p := by
  unfold getEntry
  by_cases hcond : 0 ≤ j ∧ 0 ≤ r
  · rw [if_pos hcond]
    by_cases hjd : j.toNat = d
    · rw [hjd, getD_mkBoard_d c d X Y hd]
      exact getD_ne_of_not_mem Y none (some p) hYp (by simp) r.toNat
    · have hjc : j.toNat ≠ c := by
        intro he
        exact hj (by rw [← he, Int.toNat_of_nonneg hcond.1])
      rw [getD_mkBoard_other c d j.toNat X Y hjc hjd]
      simp
  · rw [if_neg hcond]
    simp

end ConnectFour

namespace ConnectFour

lemma countForward_zero_of_ne (board : List (List (Option Nat))) (fuel : Nat)
    (r j rowInc colInc : Int) (p : Nat) (h : getEntry board j r ≠ some p) :
    countForward board fuel r j rowInc colInc p = 0 := by
  cases fuel with
  | zero => rfl
  | succ fuel => rw [countForward, if_neg (fun hh => h hh.2.2)]

lemma countBackward_zero_of_ne (board : List (List (Option Nat))) (fuel : Nat)
    (r j rowInc colInc : Int) (p : Nat) (h : getEntry board j r ≠ some p) :
    countBackward board fuel r j rowInc colInc p = 0 := by
  cases fuel with
  | zero => rfl
  | succ fuel => rw [countBackward, if_neg (fun hh => h hh.2.2)]

/-- The vertical forward walk restricted to the stacked column: the loop
condition `currCol < NUM_COL && currRow < NUM_ROW && cell = player` becomes
a walk down the column list. -/
def downRun (X : List (Option Nat)) (p : Nat) : Nat → Int → Nat
  | 0, _ => 0
  | fuel + 1, r =>
    if r < 6 ∧ 0 ≤ r ∧ X.getD r.toNat none = some p then
      1 + downRun X p fuel (r + 1)
    else 0

/-- The vertical backward walk restricted to the stacked column. -/
def upRun (X : List (Option Nat)) (p : Nat) : Nat → Int → Nat
  | 0, _ => 0
  | fuel + 1, r =>
    if 0 ≤ r ∧ X.getD r.toNat none = some p then
      1 + upRun X p fuel (r - 1)
    else 0

lemma countForward_vert (c d : Nat) (X Y : List (Option Nat)) (p : Nat)
    (hc : c < 7) (hne : c ≠ d) (fuel : Nat) (r : Int) :
    countForward (mkBoard c d X Y) fuel r c 1 0 p = downRun X p fuel r := by
  induction fuel generalizing r with
  | zero => rfl
  | succ fuel ih =>
    rw [countForward, downRun,
      getEntry_mkBoard_c c d X Y hc hne r]
    by_cases hr : 0 ≤ r
    · rw [if_pos hr]
      by_cases hr6 : r < 6
      · by_cases hcell : X.getD r.toNat none = some p
        · rw [if_pos ⟨by exact_mod_cast hc, hr6, hcell⟩,
            if_pos ⟨hr6, hr, hcell⟩, Int.add_zero, ih]
        · rw [if_neg (fun hh => hcell hh.2.2), if_neg (fun hh => hcell hh.2.2)]
      · rw [if_neg (fun hh => hr6 hh.2.1), if_neg (fun hh => hr6 hh.1)]
    · rw [if_neg hr]
      rw [if_neg (by intro hh; exact Option.noConfusion hh.2.2),
        if_neg (fun hh => hr hh.2.1)]

lemma countBackward_vert (c d : Nat) (X Y : List (Option Nat)) (p : Nat)
    (hc : c < 7) (hne : c ≠ d) (fuel : Nat) (r : Int) :
    countBackward (mkBoard c d X Y) fuel r c 1 0 p = upRun X p fuel r := by
  induction fuel generalizing r with
  | zero => rfl
  | succ fuel ih =>
    rw [countBackward, upRun,
      getEntry_mkBoard_c c d X Y hc hne r]
    by_cases hr : 0 ≤ r
    · rw [if_pos hr]
      by_cases hcell : X.getD r.toNat none = some p
      · rw [if_pos ⟨Int.ofNat_nonneg c, hr, hcell⟩, if_pos ⟨hr, hcell⟩,
          Int.sub_zero, ih]
      · rw [if_neg (fun hh => hcell hh.2.2), if_neg (fun hh => hcell hh.2)]
    · rw [if_neg hr]
      rw [if_neg (by intro hh; exact Option.noConfusion hh.2.2),
        if_neg (fun hh => hr hh.1)]

lemma didWin_vert_eq (c d : Nat) (X Y : List (Option Nat)) (p : Nat)
    (hc : c < 7) (hne : c ≠ d) (r : Int) :
    didWin (mkBoard c d X Y) r c 1 0 p =
      decide (4 ≤ downRun X p 13 r + upRun X p 13 (r - 1)) := by
  unfold didWin
  rw [show ((c : Int) - 0) = (c : Int) from Int.sub_zero _]
  rw [countForward_vert c d X Y p hc hne, countBackward_vert c d X Y p hc hne]
  simp only [NUM_COL, NUM_ROW, NUM_TO_WIN, ge_iff_le]

lemma countForward_colInc1_le (c d : Nat) (X Y : List (Option Nat)) (p : Nat)
    (hd : d < 7) (hYp : some p ∉ Y) (fuel : Nat) (r rowInc : Int) :
    countForward (mkBoard c d X Y) (fuel + 1) r c rowInc 1 p ≤ 1 := by
  rw [countForward]
  by_cases hcond : (c : Int) < (NUM_COL : Int) ∧ r < (NUM_ROW : Int) ∧
      getEntry (mkBoard c d X Y) c r = some p
  · rw [if_pos hcond,
      countForward_zero_of_ne _ _ _ _ _ _ _
        (getEntry_mkBoard_ne_p c d X Y p hd _ _ (by omega) hYp)]
  · rw [if_neg hcond]
    omega

lemma didWin_colInc1_false (c d : Nat) (X Y : List (Option Nat)) (p : Nat)
    (hd : d < 7) (hYp : some p ∉ Y) (r rowInc : Int) :
    didWin (mkBoard c d X Y) r c rowInc 1 p = false := by
  unfold didWin
  have h1 : countForward (mkBoard c d X Y) (NUM_COL + NUM_ROW) r c rowInc 1 p ≤ 1 :=
    countForward_colInc1_le c d X Y p hd hYp 12 r rowInc
  have h2 : countBackward (mkBoard c d X Y) (NUM_COL + NUM_ROW)
      (r - rowInc) ((c : Int) - 1) rowInc 1 p = 0 :=
    countBackward_zero_of_ne _ _ _ _ _ _ _
      (getEntry_mkBoard_ne_p c d X Y p hd _ _ (by omega) hYp)
  rw [h2]
  exact decide_eq_false (by unfold NUM_TO_WIN; omega)

lemma mkBoard_not_full (c d : Nat) (X Y : List (Option Nat)) (hc : c < 7)
    (hne : c ≠ d) (hnone : none ∈ X) :
    ((mkBoard c d X Y).all fun column => column.all fun val => val.isSome)
      = false := by
  have hlt : c < (mkBoard c d X Y).length := by rw [mkBoard_length]; exact hc
  have hXmem : X ∈ mkBoard c d X Y := by
    have hmem := List.getElem_mem hlt
    have hget : (mkBoard c d X Y).getD c [] = X := getD_mkBoard_c c d X Y hc hne
    rw [List.getD_eq_getElem _ _ hlt] at hget
    rw [hget] at hmem
    exact hmem
  rw [List.all_eq_false]
  refine ⟨X, hXmem, fun hall => ?_⟩
  rw [List.all_eq_true] at hall
  simpa using hall none hnone

end ConnectFour

namespace ConnectFour

/-- One drop of the stacking scenario: with the board in `mkBoard` shape, the
game not over, the target column `X` not full, and the other touched column
`Y` free of the mover's pieces, a `move` in column `c` fills the last `null`
slot of `X` and every non-vertical axis counts at most the placed cell, so
the move's outcome is decided by the vertical run alone. -/
lemma reducer_move_stack (c d : Nat) (X Y X' : List (Option Nat)) (p : Nat)
    (r0 : Int) (n : Nat) (s : GameState)
    (hc : c < 7) (hd : d < 7) (hne : c ≠ d)
    (hboard : s.board = mkBoard c d X Y)
    (hgo : s.isGameOver = false)
    (hp : s.currentPlayer = p)
    (htop : X.getD 0 none = none)
    (hr0 : lastIndexOfNone X = r0)
    (hX' : setAt X r0 (some p) = X')
    (hYp : some p ∉ Y)
    (hnone : none ∈ X')
    (hrun : downRun X' p 13 r0 + upRun X' p 13 (r0 - 1) = n) :
    reducer s (.move c) =
      { board := mkBoard c d X' Y
        currentPlayer := if p = 1 then 2 else 1
        winner := if 4 ≤ n then some p else none
        isGameOver := decide (4 ≤ n) } := by
  obtain ⟨board, player, win, go⟩ := s
  dsimp only at hboard hgo hp
  subst hboard
  subst hgo
  have hp2 : p = player := hp.symm
  subst hp2
  simp only [reducer]
  rw [getD_mkBoard_c c d X Y hc hne, htop]
  simp only [Option.isSome_none, Bool.or_false, Bool.false_eq_true, if_false]
  rw [hr0, hX', set_mkBoard_c c d X Y X' hne]
  rw [didWin_vert_eq c d X' Y p hc hne r0]
  rw [didWin_colInc1_false c d X' Y p hd hYp r0 0,
    didWin_colInc1_false c d X' Y p hd hYp r0 1,
    didWin_colInc1_false c d X' Y p hd hYp r0 (-1)]
  rw [hrun, mkBoard_not_full c d X' Y hc hne hnone]
  simp only [Bool.or_false, Bool.false_or]
  by_cases h4 : 4 ≤ n
  · simp [h4]
  · simp [h4]

end ConnectFour

namespace ConnectFour

/-- **C3**: from the empty board, the move sequence `c, d, c, d, c, d, c`
(player 1 dropping four times into column `c`, player 2 alternating into
another column `d`) ends with player 1 reported as the winner and the game
over: on the fourth drop the vertical axis — counted by `didWin` extending
both directions from the placed cell — reaches 4. -/
theorem connect_four_vertical_win (c d : Nat) (hc : c < 7) (hd : d < 7)
    (hne : c ≠ d) :
    (applyMoves genEmptyState [c, d, c, d, c, d, c]).winner = some 1 ∧
    (applyMoves genEmptyState [c, d, c, d, c, d, c]).isGameOver = true := by
  have hne' : d ≠ c := Ne.symm hne
  have e1 : reducer genEmptyState (.move c) =
      (⟨mkBoard c d colC1 colE, 2, none, false⟩ : GameState) :=
    reducer_move_stack c d colE colE colC1 1 5 1 genEmptyState hc hd hne
      (mkBoard_base c d hc hd).symm rfl rfl (by decide) (by decide) (by decide)
      (by decide) (by decide) (by decide)
  have e2 : reducer (⟨mkBoard c d colC1 colE, 2, none, false⟩ : GameState) (.move d) =
      (⟨mkBoard c d colC1 colD1, 1, none, false⟩ : GameState) := by
    have h := reducer_move_stack d c colE colC1 colD1 2 5 1
      (⟨mkBoard c d colC1 colE, 2, none, false⟩ : GameState) hd hc hne'
      (mkBoard_comm c d colC1 colE hne) rfl rfl (by decide) (by decide)
      (by decide) (by decide) (by decide) (by decide)
    rw [mkBoard_comm d c colD1 colC1 hne'] at h
    exact h
  have e3 : reducer (⟨mkBoard c d colC1 colD1, 1, none, false⟩ : GameState) (.move c) =
      (⟨mkBoard c d colC2 colD1, 2, none, false⟩ : GameState) :=
    reducer_move_stack c d colC1 colD1 colC2 1 4 2 _ hc hd hne rfl rfl rfl
      (by decide) (by decide) (by decide) (by decide) (by decide) (by decide)
  have e4 : reducer (⟨mkBoard c d colC2 colD1, 2, none, false⟩ : GameState) (.move d) =
      (⟨mkBoard c d colC2 colD2, 1, none, false⟩ : GameState) := by
    have h := reducer_move_stack d c colD1 colC2 colD2 2 4 2
      (⟨mkBoard c d colC2 colD1, 2, none, false⟩ : GameState) hd hc hne'
      (mkBoard_comm c d colC2 colD1 hne) rfl rfl (by decide) (by decide)
      (by decide) (by decide) (by decide) (by decide)
    rw [mkBoard_comm d c colD2 colC2 hne'] at h
    exact h
  have e5 : reducer (⟨mkBoard c d colC2 colD2, 1, none, false⟩ : GameState) (.move c) =
      (⟨mkBoard c d colC3 colD2, 2, none, false⟩ : GameState) :=
    reducer_move_stack c d colC2 colD2 colC3 1 3 3 _ hc hd hne rfl rfl rfl
      (by decide) (by decide) (by decide) (by decide) (by decide) (by decide)
  have e6 : reducer (⟨mkBoard c d colC3 colD2, 2, none, false⟩ : GameState) (.move d) =
      (⟨mkBoard c d colC3 colD3, 1, none, false⟩ : GameState) := by
    have h := reducer_move_stack d c colD2 colC3 colD3 2 3 3
      (⟨mkBoard c d colC3 colD2, 2, none, false⟩ : GameState) hd hc hne'
      (mkBoard_comm c d colC3 colD2 hne) rfl rfl (by decide) (by decide)
      (by decide) (by decide) (by decide) (by decide)
    rw [mkBoard_comm d c colD3 colC3 hne'] at h
    exact h
  have e7 : reducer (⟨mkBoard c d colC3 colD3, 1, none, false⟩ : GameState) (.move c) =
      (⟨mkBoard c d colC4 colD3, 2, some 1, true⟩ : GameState) :=
    reducer_move_stack c d colC3 colD3 colC4 1 2 4 _ hc hd hne rfl rfl rfl
      (by decide) (by decide) (by decide) (by decide) (by decide) (by decide)
  have hall : applyMoves genEmptyState [c, d, c, d, c, d, c] =
      (⟨mkBoard c d colC4 colD3, 2, some 1, true⟩ : GameState) := by
    simp only [applyMoves]
    rw [e1, e2, e3, e4, e5, e6, e7]
  rw [hall]
  exact ⟨rfl, rfl⟩

/-- Witness for `connect_four_vertical_win`: player 1 stacks column 0,
player 2 alternates in column 1. -/
theorem connect_four_vertical_win_witness :
    (applyMoves genEmptyState [0, 1, 0, 1, 0, 1, 0]).winner = some 1 ∧
    (applyMoves genEmptyState [0, 1, 0, 1, 0, 1, 0]).isGameOver = true :=
  connect_four_vertical_win 0 1 (by decide) (by decide) (by decide)

/-- **C4**: a move whose target column's topmost cell is occupied, or issued
when the game is already over, returns the state completely unchanged —
board, current player, winner and game-over flag — and, the reducer being a
total function, without raising any exception. -/
theorem move_rejected (state : GameState) (colIndex : Nat)
    (h : state.isGameOver = true ∨
      ((state.board.getD colIndex []).getD 0 none).isSome = true) :
    reducer state (.move colIndex) = state := by
  simp only [reducer]
  rcases h with h | h
  · rw [h]
    simp
  · rw [h]
    simp

/-- A state whose column 0 is completely full. -/
def blockedState : GameState :=
  { board := List.replicate 6 (some 1) ::
      List.replicate 6 (List.replicate 6 none)
    currentPlayer := 1
    winner := none
    isGameOver := false }

/-- Witness for `move_rejected`: dropping into the full column 0 of
`blockedState` changes nothing. -/
theorem move_rejected_witness :
    reducer blockedState (.move 0) = blockedState :=
  move_rejected blockedState 0 (Or.inr (by decide))

end ConnectFour

namespace ConnectFour

/-- States reachable through the component's UI: the initial state, `move`
actions on the 7 rendered columns, and `restart` clicks. -/
inductive Reachable : GameState → Prop
  | init : Reachable genEmptyState
  | move (s : GameState) (colIndex : Nat) : Reachable s → colIndex < 7 →
      Reachable (reducer s (.move colIndex))
  | restart (s : GameState) : Reachable s → Reachable (reducer s .restart)

lemma setAt_length (col : List (Option Nat)) (i : Int) (v : Option Nat) :
    (setAt col i v).length = col.length := by
  unfold setAt
  split
  · rfl
  · exact List.length_set col i.toNat v

lemma dims_empty :
    genEmptyState.board.length = 7 ∧
      ∀ col ∈ genEmptyState.board, col.length = 6 := by
  refine ⟨rfl, fun col hcol => ?_⟩
  rw [List.eq_of_mem_replicate hcol]
  rfl

lemma reachable_dims {s : GameState} (h : Reachable s) :
    s.board.length = 7 ∧ ∀ col ∈ s.board, col.length = 6 := by
  induction h with
  | init => exact dims_empty
  | move s colIndex hre hlt ih =>
    simp only [reducer]
    split
    · exact ih
    · refine ⟨by simp only [List.length_set]; exact ih.1, fun col hcol => ?_⟩
      rcases List.mem_or_eq_of_mem_set hcol with hmem | rfl
      · exact ih.2 col hmem
      · rw [setAt_length]
        have hci : colIndex < s.board.length := by rw [ih.1]; exact hlt
        rw [List.getD_eq_getElem _ _ hci]
        exact ih.2 _ (List.getElem_mem hci)
  | restart s hre ih => exact dims_empty

lemma lastIndexOfNone_nonneg (col : List (Option Nat)) (h : none ∈ col) :
    0 ≤ lastIndexOfNone col := by
  induction col with
  | nil => cases h
  | cons x rest ih =>
    rw [lastIndexOfNone]
    rcases List.mem_cons.mp h with rfl | hrest
    · by_cases hr : lastIndexOfNone rest ≥ 0
      · rw [if_pos hr]; omega
      · rw [if_neg hr, if_pos rfl]
    · have := ih hrest
      rw [if_pos (by omega)]
      omega

lemma lastIndexOfNone_lt (col : List (Option Nat)) :
    lastIndexOfNone col < (col.length : Int) := by
  induction col with
  | nil => rw [lastIndexOfNone]; simp
  | cons x rest ih =>
    rw [lastIndexOfNone, List.length_cons]
    by_cases hr : lastIndexOfNone rest ≥ 0
    · rw [if_pos hr]
      push_cast
      omega
    · rw [if_neg hr]
      by_cases hx : x = none
      · rw [if_pos hx]
        omega
      · rw [if_neg hx]
        omega

lemma getD_set_self (l : List (Option Nat)) (i : Nat) (v : Option Nat)
    (h : i < l.length) : (l.set i v).getD i none = v := by
  rw [List.getD_eq_getElem _ _ (by rw [List.length_set]; exact h)]
  exact List.getElem_set_self _

lemma getD_replicate_none (i : Nat) :
    (List.replicate 6 (none : Option Nat)).getD i none = none := by
  rw [List.getD_eq_getElem?_getD, List.getElem?_replicate]
  split
  · rfl
  · rfl

/-- A successful move writes the mover's piece into the target column, so
its board differs from the empty board at the placed cell: the board is
cleared only by an explicit restart. -/
lemma move_not_clearing {s : GameState} (c : Nat) (hre : Reachable s)
    (hc : c < 7) :
    reducer s (.move c) = s ∨
      (reducer s (.move c)).board ≠ genEmptyState.board := by
  have ih := reachable_dims hre
  have hci : c < s.board.length := by rw [ih.1]; exact hc
  simp only [reducer]
  split
  · exact Or.inl rfl
  · rename_i hguard
    right
    intro hEq
    dsimp only at hEq
    have hclen : (s.board.getD c []).length = 6 := by
      rw [List.getD_eq_getElem _ _ hci]
      exact ih.2 _ (List.getElem_mem hci)
    have htop : (s.board.getD c []).getD 0 none = none := by
      by_contra hfull
      apply hguard
      have hsome : ((s.board.getD c []).getD 0 none).isSome = true :=
        Option.isSome_iff_ne_none.mpr hfull
      rw [hsome, Bool.or_true]
    have hmem : none ∈ s.board.getD c [] := by
      rw [List.getD_eq_getElem?_getD] at htop
      cases hg : (s.board.getD c [])[0]? with
      | none =>
        have h0 : 0 < (s.board.getD c []).length := by rw [hclen]; omega
        rw [List.getElem?_eq_getElem h0] at hg
        exact Option.noConfusion hg
      | some y =>
        rw [hg] at htop
        simp only [Option.getD_some] at htop
        subst htop
        obtain ⟨hlt0, h0⟩ := List.getElem?_eq_some.mp hg
        exact h0 ▸ List.getElem_mem hlt0
    have hr0 := lastIndexOfNone_nonneg _ hmem
    have hr1 := lastIndexOfNone_lt (s.board.getD c [])
    rw [hclen] at hr1
    have hsetAt : setAt (s.board.getD c [])
        (lastIndexOfNone (s.board.getD c [])) (some s.currentPlayer) =
        (s.board.getD c []).set
          (lastIndexOfNone (s.board.getD c [])).toNat
          (some s.currentPlayer) := by
      unfold setAt
      rw [if_neg (by omega)]
    have hL : (s.board.set c (setAt (s.board.getD c [])
        (lastIndexOfNone (s.board.getD c []))
        (some s.currentPlayer))).getD c [] =
        setAt (s.board.getD c []) (lastIndexOfNone (s.board.getD c []))
          (some s.currentPlayer) := by
      rw [List.getD_eq_getElem _ _ (by rw [List.length_set]; exact hci)]
      exact List.getElem_set_self _
    have hR : genEmptyState.board.getD c [] = List.replicate 6 none := by
      rw [List.getD_eq_getElem _ _ (by simpa using hc)]
      exact List.getElem_replicate _ _
    have hcols : setAt (s.board.getD c [])
        (lastIndexOfNone (s.board.getD c [])) (some s.currentPlayer) =
        List.replicate 6 none := by
      rw [← hL, hEq, hR]
    rw [hsetAt] at hcols
    have hbad := congrArg
      (fun col => col.getD (lastIndexOfNone (s.board.getD c [])).toNat none)
      hcols
    dsimp only at hbad
    rw [getD_set_self _ _ _ (by rw [hclen]; omega), getD_replicate_none]
      at hbad
    exact Option.noConfusion hbad

/-- **C9**: every UI-reachable Connect Four state has exactly 7 columns of
exactly 6 cells (the dimensions are invariant under `move` and `restart`);
`restart` reinitializes to the empty state; and a `move` from a reachable
state either changes nothing (rejected move) or leaves a piece on the board,
so the board is reinitialized to empty only by an explicit restart. -/
theorem connect_four_board_invariants :
    (∀ s : GameState, Reachable s →
      s.board.length = 7 ∧ ∀ col ∈ s.board, col.length = 6) ∧
    (∀ s : GameState, reducer s .restart = genEmptyState) ∧
    (∀ (s : GameState) (c : Nat), Reachable s → c < 7 →
      reducer s (.move c) = s ∨
        (reducer s (.move c)).board ≠ genEmptyState.board) :=
  ⟨fun _ h => reachable_dims h, fun _ => rfl,
   fun _ c hre hc => move_not_clearing c hre hc⟩

/-- Witness for `connect_four_board_invariants` at the initial state: its
dimensions, a restart on it, and a move on it (which, placing a piece,
yields a non-empty board). -/
theorem connect_four_board_invariants_witness :
    (genEmptyState.board.length = 7 ∧
      ∀ col ∈ genEmptyState.board, col.length = 6) ∧
    reducer genEmptyState .restart = genEmptyState ∧
    (reducer genEmptyState (.move 0) = genEmptyState ∨
      (reducer genEmptyState (.move 0)).board ≠ genEmptyState.board) :=
  ⟨connect_four_board_invariants.1 genEmptyState Reachable.init,
   connect_four_board_invariants.2.1 genEmptyState,
   connect_four_board_invariants.2.2 genEmptyState 0 Reachable.init
     (by decide)⟩

end ConnectFour
